import Mathlib

/-!
Shallow embedding of the `market-data-api` repository
(`src/schwab_market_data_client.py`, `src/market_data_aggregator.py`)
and proofs about the embedded definitions.

Conventions used throughout:
* machine integers are modelled as `Int`/`Nat` (no overflow is in play:
  Python integers are unbounded);
* a pandas `DataFrame` of market rows is a `List Row` in row order;
* Python `None` return values become `Option`;
* the exchange-local result of `datetime.astimezone` is a `LocalDT`
  record (year/month/day plus time of day in seconds); the timezone
  database itself is external, so the processor takes the localization
  map `localize : Int → LocalDT` as a parameter, exactly where the
  source holds `self.timezone`.
-/

/-! ### Exchange-local datetimes and the trading calendar
    (`MarketConfig`, `MarketDataProcessor._process_single_candle`,
    `MarketDataProcessor._is_fourth_friday`) -/

/-- An exchange-local timezone-aware instant, as produced by
`dt_utc.astimezone(self.timezone)`: calendar date plus time of day,
`tod` in seconds since local midnight. -/
structure LocalDT where
  year : Nat
  month : Nat
  day : Nat
  tod : Nat
  deriving DecidableEq

/-- `MarketConfig.market_open = '09:30:00'` as seconds of day. -/
def market_open : Nat := 9 * 3600 + 30 * 60

/-- `MarketConfig.market_close = '16:00:00'` as seconds of day. -/
def market_close : Nat := 16 * 3600

/-- `MarketConfig.early_close = '13:00:00'` as seconds of day. -/
def early_close : Nat := 13 * 3600

/-- Gregorian leap-year rule, as used by Python's `calendar` module. -/
def isLeapYear (y : Nat) : Bool :=
  decide ((y % 4 = 0 ∧ y % 100 ≠ 0) ∨ y % 400 = 0)

/-- `calendar.monthrange(year, month)[1]`: number of days in the month. -/
def monthrange (y m : Nat) : Nat :=
  if m = 2 then (if isLeapYear y then 29 else 28)
  else if m = 4 ∨ m = 6 ∨ m = 9 ∨ m = 11 then 30
  else 31

/-- `datetime(year, month, day).weekday()`: 0 = Monday, …, 4 = Friday,
6 = Sunday, computed for the proleptic Gregorian calendar (Sakamoto's
congruence, shifted to Python's Monday-based convention). -/
def weekday (y m d : Nat) : Nat :=
  let y2 := if m < 3 then y - 1 else y
  let t := [0, 3, 2, 5, 0, 3, 5, 1, 4, 6, 2, 4]
  (y2 + y2 / 4 - y2 / 100 + y2 / 400 + t.getD (m - 1) 0 + d + 6) % 7

/-- The chronological list of Fridays (days of month) built by the loop in
`MarketDataProcessor._is_fourth_friday`. -/
def fridaysOf (y m : Nat) : List Nat :=
  ((List.range (monthrange y m)).map (· + 1)).filter (fun d => weekday y m d = 4)

/-- `MarketDataProcessor._is_fourth_friday`:
`len(fridays) >= 4 and date.day == fridays[3]` (a `get? 3` that returns
`some` already forces length ≥ 4). -/
def is_fourth_friday (dt : LocalDT) : Bool :=
  decide ((fridaysOf dt.year dt.month).get? 3 = some dt.day)

/-- The market-hours decision inside
`MarketDataProcessor._process_single_candle`, applied to the
exchange-local instant: the candle survives iff this returns `true`.
Each `if … then false` mirrors one `return None` branch of the source,
in source order. -/
def sessionAccept (dt : LocalDT) : Bool :=
  if dt.tod < market_open ∨ market_close < dt.tod then false
  else if dt.month = 7 ∧ dt.day = 3 ∧ early_close < dt.tod then false
  else if dt.month = 11 ∧ is_fourth_friday dt = true ∧ early_close < dt.tod then false
  else if dt.month = 12 ∧ dt.day = 24 ∧ early_close < dt.tod then false
  else true

/-! ### Candle processing
    (`MarketDataProcessor.process_candles`) -/

/-- A raw provider candle: the wire record handed to
`process_candles`.  `datetime` is the epoch-milliseconds key of the
dictionary; the numeric fields are the `candle.get(…, 0)` values. -/
structure RawCandle where
  datetime : Int
  open_ : Int
  high : Int
  low : Int
  close : Int
  volume : Int
  deriving DecidableEq

/-- One row of the processed DataFrame, as built at the end of
`_process_single_candle`.  The `datetime` field models the formatted
local datetime string `dt_et.strftime('%Y-%m-%d %H:%M:%S %Z')` by the
`LocalDT` value it displays (the zero-padded format is injective on
those fields). -/
structure Row where
  timestamp : Int
  datetime : LocalDT
  open_ : Int
  high : Int
  low : Int
  close : Int
  volume : Int
  deriving DecidableEq

/-- `MarketDataProcessor._process_single_candle`.  `localize` stands for
the composite `datetime.fromtimestamp(ms / 1000, tz=UTC).astimezone(self.timezone)`
conversion (the external tz database), mapping the epoch-millis value to
the exchange-local instant. -/
def process_single_candle (localize : Int → LocalDT) (c : RawCandle) : Option Row :=
  if sessionAccept (localize c.datetime) then
    some { timestamp := c.datetime, datetime := localize c.datetime,
           open_ := c.open_, high := c.high, low := c.low,
           close := c.close, volume := c.volume }
  else none

/-- Insert a row into a timestamp-sorted list (helper of `sort_values`). -/
def insertByTs (r : Row) : List Row → List Row
  | [] => [r]
  | s :: t => if r.timestamp ≤ s.timestamp then r :: s :: t else s :: insertByTs r t

/-- `df.sort_values('timestamp')`: sort rows ascending by timestamp
(modelled as a stable insertion sort). -/
def sortByTs : List Row → List Row
  | [] => []
  | r :: t => insertByTs r (sortByTs t)

/-- `df.drop_duplicates(subset=['timestamp'])`: keep the first row of
each timestamp value, drop later occurrences. -/
def dedupByTs : List Row → List Row
  | [] => []
  | r :: rs => r :: dedupByTs (rs.filter (fun s => s.timestamp ≠ r.timestamp))
termination_by l => l.length
decreasing_by
  simp only [List.length_cons]
  exact Nat.lt_succ_of_le (List.length_filter_le _ _)

/-- `MarketDataProcessor.process_candles`: filter each candle through
`_process_single_candle`, then sort by timestamp and drop duplicate
timestamps.  (The `if not df_data: return pd.DataFrame()` guard of the
source is the `[]` case of the same pipeline.) -/
def process_candles (localize : Int → LocalDT) (candles : List RawCandle) : List Row :=
  dedupByTs (sortByTs (candles.filterMap (process_single_candle localize)))

/-- Reading a processed row back as a raw candle (the epoch-millis
`timestamp` column becomes the provider's `datetime` key), used to state
idempotence of the cleaning pipeline. -/
def rowToCandle (r : Row) : RawCandle :=
  { datetime := r.timestamp, open_ := r.open_, high := r.high,
    low := r.low, close := r.close, volume := r.volume }

/-! ### Data-quality validation
    (`DataQualityValidator`) -/

/-- `DataQualityValidator._check_duplicate_timestamps`:
`df.duplicated(subset=['timestamp'], keep=False)` marks every row whose
timestamp occurs more than once; the check passes iff that selection is
empty. -/
def check_duplicate_timestamps (df : List Row) : Bool :=
  (df.filter (fun r => 2 ≤ df.countP (fun s => s.timestamp = r.timestamp))).isEmpty

/-- `DataQualityValidator._check_duplicate_datetime`: same pattern on the
formatted datetime column. -/
def check_duplicate_datetime (df : List Row) : Bool :=
  (df.filter (fun r => 2 ≤ df.countP (fun s => s.datetime = r.datetime))).isEmpty

/-- `DataQualityValidator._check_null_values`: only logs a warning and
always returns `True` (a soft check); in the typed row model there are
no nulls to count. -/
def check_null_values (_df : List Row) : Bool := true

/-- `DataQualityValidator._check_negative_prices`: fails iff some row has
a negative open/high/low/close. -/
def check_negative_prices (df : List Row) : Bool :=
  (df.filter (fun r => r.open_ < 0 ∨ r.high < 0 ∨ r.low < 0 ∨ r.close < 0)).isEmpty

/-- `DataQualityValidator._check_volume_values`: only logs zero/negative
volumes and always returns `True` (a soft check). -/
def check_volume_values (_df : List Row) : Bool := true

/-- `Series.is_monotonic_increasing`: consecutive values non-decreasing. -/
def monotonicInc : List Int → Bool
  | [] => true
  | [_] => true
  | a :: b :: t => a ≤ b && monotonicInc (b :: t)

/-- `DataQualityValidator._check_timestamp_ordering`. -/
def check_timestamp_ordering (df : List Row) : Bool :=
  monotonicInc (df.map (·.timestamp))

/-- The `validations` list of `validate_dataframe`, with the source's
method names, in source order. -/
def validations : List (String × (List Row → Bool)) :=
  [("check_duplicate_timestamps", check_duplicate_timestamps),
   ("check_duplicate_datetime", check_duplicate_datetime),
   ("check_null_values", check_null_values),
   ("check_negative_prices", check_negative_prices),
   ("check_volume_values", check_volume_values),
   ("check_timestamp_ordering", check_timestamp_ordering)]

/-- The `for validation in validations: if not validation(df): return False`
loop: run the checks in order, returning `false` at the first failure. -/
def runValidations (cs : List (String × (List Row → Bool))) (df : List Row) : Bool :=
  match cs with
  | [] => true
  | c :: rest => if c.2 df then runValidations rest df else false

/-- `DataQualityValidator.validate_dataframe`.  A `None` DataFrame is
modelled, like an empty one, by `[]`: both take the
`"cannot validate"` early return. -/
def validate_dataframe (df : List Row) : Bool :=
  if df.isEmpty then false else runValidations validations df

/-- Instrumentation of the same loop: the names of the checks the loop
actually evaluates (every check up to and including the first failing
one; all of them when none fails). -/
def evaluatedChecks (cs : List (String × (List Row → Bool))) (df : List Row) : List String :=
  match cs with
  | [] => []
  | c :: rest => if c.2 df then c.1 :: evaluatedChecks rest df else [c.1]

/-- The checks evaluated by one `validate_dataframe` call (none on the
empty/`None` early return). -/
def validationTrace (df : List Row) : List String :=
  if df.isEmpty then [] else evaluatedChecks validations df

/-! ### Period optimization
    (`PeriodOptimizer`) -/

/-- `PeriodOptimizer.VALID_PERIODS`. -/
def VALID_PERIODS : List Int := [10, 5, 4, 3, 2, 1]

/-- The `for period in VALID_PERIODS: if days_remaining >= period: return period`
loop. -/
def periodLoop (d : Int) : List Int → Int
  | [] => 0
  | p :: ps => if p ≤ d then p else periodLoop d ps

/-- `PeriodOptimizer.get_optimal_period`. -/
def get_optimal_period (days_remaining : Int) : Int :=
  periodLoop days_remaining VALID_PERIODS

/-! ### Multi-period fetching
    (`SchwabMarketDataClient._fetch_all_periods`, `_fetch_period`,
    `get_price_history`) -/

/-- End day of the chunk issued from `cur`:
`period_end_dt = current_start_dt + timedelta(days=period - 1)`, clamped
to `end_dt`.  Dates are modelled at day granularity (the start/end
datetimes are midnight-localized dates, so `(end - start).days` is their
day difference). -/
def chunkEnd (cur e : Int) : Int :=
  min (cur + get_optimal_period (e - cur + 1) - 1) e

/-- The chunking loop of `_fetch_all_periods`, with the HTTP layer
abstracted as `oracle start end = some candles` on a 2xx response and
`none` on a transport error or non-2xx status (`_fetch_period`'s two
outcomes).  `none` here models the source's `return []` early exit on a
failed chunk, which discards `all_candles`; `some acc` is the normal
exit with the accumulated candles. -/
def fetchAllAux (oracle : Int → Int → Option (List RawCandle)) (cur e : Int) :
    Option (List RawCandle) :=
  if h : cur ≤ e then
    if hp : get_optimal_period (e - cur + 1) = 0 then some []
    else
      match oracle cur (chunkEnd cur e) with
      | none => none
      | some cs => (fetchAllAux oracle (chunkEnd cur e + 1) e).map (fun rest => cs ++ rest)
  else some []
termination_by (e + 1 - cur).toNat
decreasing_by
  have h0 : (0 : Int) ≤ get_optimal_period (e - cur + 1) := by
    simp only [get_optimal_period, VALID_PERIODS, periodLoop]
    split_ifs <;> omega
  have h1 : cur ≤ chunkEnd cur e := by
    simp only [chunkEnd]; omega
  have h2 : chunkEnd cur e ≤ e := by
    simp only [chunkEnd]; omega
  omega

/-- `SchwabMarketDataClient._fetch_all_periods`: value actually returned
to the caller — the accumulated candles, or `[]` when any chunk failed. -/
def fetch_all_periods (oracle : Int → Int → Option (List RawCandle)) (cur e : Int) :
    List RawCandle :=
  (fetchAllAux oracle cur e).getD []

/-- The sequence of `(start, end)` request windows the loop issues when
no chunk fails. -/
def chunks (cur e : Int) : List (Int × Int) :=
  if h : cur ≤ e then
    if hp : get_optimal_period (e - cur + 1) = 0 then []
    else (cur, chunkEnd cur e) :: chunks (chunkEnd cur e + 1) e
  else []
termination_by (e + 1 - cur).toNat
decreasing_by
  have h0 : (0 : Int) ≤ get_optimal_period (e - cur + 1) := by
    simp only [get_optimal_period, VALID_PERIODS, periodLoop]
    split_ifs <;> omega
  have h1 : cur ≤ chunkEnd cur e := by
    simp only [chunkEnd]; omega
  have h2 : chunkEnd cur e ≤ e := by
    simp only [chunkEnd]; omega
  omega

/-- `SchwabMarketDataClient.get_price_history` after input validation:
fetch all periods, return `None` when nothing came back
(`if not all_candles`), otherwise the processed DataFrame. -/
def get_price_history (localize : Int → LocalDT)
    (oracle : Int → Int → Option (List RawCandle)) (cur e : Int) : Option (List Row) :=
  let all_candles := fetch_all_periods oracle cur e
  if all_candles.isEmpty then none else some (process_candles localize all_candles)

/-! ### Timeframe aggregation
    (`market_data_aggregator.aggregate_market_data`) -/

/-- One CSV row as indexed by the aggregator: `lt` is the parsed
exchange-local `DatetimeIndex` entry, in seconds (so `lt % 86400` is the
local time of day and day boundaries fall at multiples of 86400). -/
structure ARow where
  timestamp : Int
  lt : Nat
  open_ : Int
  high : Int
  low : Int
  close : Int
  volume : Int
  deriving DecidableEq

/-- One aggregated output row: `lt` is the resampled index (the bucket
boundary), the remaining fields the aggregated columns. -/
structure OutBar where
  lt : Nat
  timestamp : Int
  open_ : Int
  high : Int
  low : Int
  close : Int
  volume : Int
  deriving DecidableEq

/-- The aggregator's own market-hours mask:
`(df.index.time >= market_open) & (df.index.time < market_close)`. -/
def inMarketHours (r : ARow) : Bool :=
  decide (market_open ≤ r.lt % 86400 ∧ r.lt % 86400 < market_close)

/-- `df.resample(G)` bucket of a row: buckets are the wall-clock-aligned
intervals `[k*g, (k+1)*g)` of `g` seconds (every supported granularity
divides a day, so day-origin bins are wall-clock-aligned). -/
def bucketKey (g : Nat) (r : ARow) : Nat := r.lt / g

/-- The pandas `.agg({timestamp: first, open: first, high: max, low: min,
close: last, volume: sum})` applied to the rows of one bucket (in index
order); the `[]` case is never reached—resample produces no all-NaN
group after `dropna`. -/
def aggRun (g : Nat) : List ARow → OutBar
  | [] => { lt := 0, timestamp := 0, open_ := 0, high := 0, low := 0, close := 0, volume := 0 }
  | r :: rs =>
    { lt := r.lt / g * g,
      timestamp := r.timestamp,
      open_ := r.open_,
      high := rs.foldl (fun a x => max a x.high) r.high,
      low := rs.foldl (fun a x => min a x.low) r.low,
      close := (rs.getLastD r).close,
      volume := rs.foldl (fun a x => a + x.volume) r.volume }

/-- First-occurrence deduplication of a key list (the distinct resample
bins that survive `dropna`, in order of first appearance — index order
for a sorted frame). -/
def dedupFirst : List Nat → List Nat
  | [] => []
  | k :: ks => k :: (dedupFirst ks).filter (fun x => x ≠ k)

/-- The resample-and-aggregate step (lines 40–50 of the aggregator):
group the frame by bucket, aggregate each group, drop empty groups. -/
def resampleAgg (g : Nat) (rows : List ARow) : List OutBar :=
  (dedupFirst (rows.map (bucketKey g))).map
    (fun k => aggRun g (rows.filter (fun r => bucketKey g r = k)))

/-- `aggregate_market_data` on an in-memory frame (file I/O and label
lookup aside): apply the market-hours mask, then resample to `g`-second
buckets. -/
def aggregate_market_data (g : Nat) (rows : List ARow) : List OutBar :=
  resampleAgg g (rows.filter inMarketHours)

/-- The claim-side bucketing: maximal contiguous runs of rows sharing a
bucket. -/
def chunkRuns (g : Nat) : List ARow → List (List ARow)
  | [] => []
  | [r] => [[r]]
  | r :: s :: t =>
    match chunkRuns g (s :: t) with
    | [] => [[r]]
    | run :: runs =>
      if bucketKey g r = bucketKey g s then (r :: run) :: runs
      else [r] :: run :: runs

/-! ## Theorems -/

/-! ### Helper lemmas -/

theorem dup_check_iff {α : Type} [DecidableEq α] (df : List Row) (key : Row → α) :
    (df.filter (fun r => 2 ≤ df.countP (fun s => key s = key r))).isEmpty = true ↔
      ∀ a : α, df.countP (fun s => key s = a) ≤ 1 := by
  rw [List.isEmpty_iff, List.filter_eq_nil_iff]
  constructor
  · intro h a
    by_contra hgt
    push_neg at hgt
    have hpos : 0 < df.countP (fun s => key s = a) := by omega
    obtain ⟨r, hr, hkey⟩ := List.countP_pos_iff.mp hpos
    simp only [decide_eq_true_eq] at hkey
    have := h r hr
    simp only [decide_eq_true_eq, hkey] at this
    omega
  · intro h r hr
    simp only [decide_eq_true_eq]
    have := h (key r)
    omega

theorem monotonicInc_iff : ∀ l : List Int,
    monotonicInc l = true ↔ List.Chain' (· ≤ ·) l
  | [] => by simp [monotonicInc]
  | [a] => by simp [monotonicInc]
  | a :: b :: t => by
    rw [monotonicInc, Bool.and_eq_true, monotonicInc_iff (b :: t), List.chain'_cons]
    simp

theorem neg_check_iff (df : List Row) :
    check_negative_prices df = true ↔
      ∀ r ∈ df, 0 ≤ r.open_ ∧ 0 ≤ r.high ∧ 0 ≤ r.low ∧ 0 ≤ r.close := by
  unfold check_negative_prices
  rw [List.isEmpty_iff, List.filter_eq_nil_iff]
  constructor
  · intro h r hr
    have := h r hr
    simp only [decide_eq_true_eq] at this
    push_neg at this
    exact ⟨this.1, this.2.1, this.2.2.1, this.2.2.2⟩
  · intro h r hr
    have := h r hr
    simp only [decide_eq_true_eq]
    push_neg
    exact ⟨this.1, this.2.1, this.2.2.1, this.2.2.2⟩

theorem mem_insertByTs (r x : Row) : ∀ l : List Row,
    (x ∈ insertByTs r l ↔ x = r ∨ x ∈ l)
  | [] => by simp [insertByTs]
  | s :: t => by
    rw [insertByTs]
    split_ifs with h
    · simp [List.mem_cons]
    · simp only [List.mem_cons, mem_insertByTs r x t]
      tauto

theorem pairwise_insertByTs (r : Row) : ∀ l : List Row,
    l.Pairwise (fun a b => a.timestamp ≤ b.timestamp) →
    (insertByTs r l).Pairwise (fun a b => a.timestamp ≤ b.timestamp)
  | [], _ => by simp [insertByTs]
  | s :: t, h => by
    rw [List.pairwise_cons] at h
    rw [insertByTs]
    split_ifs with hle
    · rw [List.pairwise_cons]
      refine ⟨?_, List.pairwise_cons.mpr h⟩
      intro b hb
      rcases List.mem_cons.mp hb with rfl | hb
      · exact hle
      · exact le_trans hle (h.1 b hb)
    · rw [List.pairwise_cons]
      refine ⟨?_, pairwise_insertByTs r t h.2⟩
      intro b hb
      rcases (mem_insertByTs r b t).mp hb with rfl | hb
      · omega
      · exact h.1 b hb

theorem mem_sortByTs (x : Row) : ∀ l : List Row, (x ∈ sortByTs l ↔ x ∈ l)
  | [] => by simp [sortByTs]
  | r :: t => by
    rw [sortByTs, mem_insertByTs]
    simp [mem_sortByTs x t]

theorem pairwise_sortByTs : ∀ l : List Row,
    (sortByTs l).Pairwise (fun a b => a.timestamp ≤ b.timestamp)
  | [] => by simp [sortByTs]
  | r :: t => pairwise_insertByTs r (sortByTs t) (pairwise_sortByTs t)

theorem sortByTs_eq_nil_iff : ∀ l : List Row, (sortByTs l = [] ↔ l = [])
  | [] => by simp [sortByTs]
  | r :: t => by
    rw [sortByTs]
    cases h : sortByTs t with
    | nil => simp [insertByTs]
    | cons s u =>
      rw [insertByTs]
      split_ifs <;> simp

theorem mem_dedupByTs (x : Row) : ∀ l : List Row, x ∈ dedupByTs l → x ∈ l
  | [] => by simp [dedupByTs]
  | r :: rs => by
    intro hx
    rw [dedupByTs] at hx
    rcases List.mem_cons.mp hx with rfl | hx
    · exact List.mem_cons_self _ _
    · exact List.mem_cons_of_mem _
        (List.mem_of_mem_filter (mem_dedupByTs x _ hx))
termination_by l => l.length
decreasing_by
  simp only [List.length_cons]
  exact Nat.lt_succ_of_le (List.length_filter_le _ _)

theorem dedupByTs_cover (x : Row) : ∀ l : List Row, x ∈ l →
    ∃ y ∈ dedupByTs l, y.timestamp = x.timestamp
  | [] => by simp
  | r :: rs => by
    intro hx
    rw [dedupByTs]
    by_cases hts : x.timestamp = r.timestamp
    · exact ⟨r, List.mem_cons_self _ _, hts.symm⟩
    · rcases List.mem_cons.mp hx with rfl | hx
      · exact absurd rfl hts
      · obtain ⟨y, hy, hyts⟩ := dedupByTs_cover x (rs.filter (fun s => s.timestamp ≠ r.timestamp))
          (List.mem_filter.mpr ⟨hx, by simpa using hts⟩)
        exact ⟨y, List.mem_cons_of_mem _ hy, hyts⟩
termination_by l => l.length
decreasing_by
  simp only [List.length_cons]
  exact Nat.lt_succ_of_le (List.length_filter_le _ _)

theorem pairwise_dedupByTs : ∀ l : List Row,
    l.Pairwise (fun a b => a.timestamp ≤ b.timestamp) →
    (dedupByTs l).Pairwise (fun a b => a.timestamp < b.timestamp)
  | [] => by simp [dedupByTs]
  | r :: rs => by
    intro h
    rw [List.pairwise_cons] at h
    rw [dedupByTs, List.pairwise_cons]
    constructor
    · intro b hb
      have hbmem : b ∈ rs.filter (fun s => s.timestamp ≠ r.timestamp) := mem_dedupByTs b _ hb
      have h1 := h.1 b (List.mem_of_mem_filter hbmem)
      have h2 := (List.mem_filter.mp hbmem).2
      simp only [decide_eq_true_eq] at h2
      omega
    · exact pairwise_dedupByTs _ (h.2.sublist (List.filter_sublist rs))
termination_by l => l.length
decreasing_by
  simp only [List.length_cons]
  exact Nat.lt_succ_of_le (List.length_filter_le _ _)

theorem dedupByTs_eq_nil_iff : ∀ l : List Row, (dedupByTs l = [] ↔ l = [])
  | [] => by simp [dedupByTs]
  | r :: rs => by rw [dedupByTs]; simp

theorem sortByTs_of_pairwise : ∀ l : List Row,
    l.Pairwise (fun a b => a.timestamp ≤ b.timestamp) → sortByTs l = l
  | [] => fun _ => rfl
  | r :: t => by
    intro h
    rw [List.pairwise_cons] at h
    rw [sortByTs, sortByTs_of_pairwise t h.2]
    cases t with
    | nil => rfl
    | cons s u =>
      rw [insertByTs, if_pos (h.1 s (List.mem_cons_self _ _))]

theorem dedupByTs_of_pairwise : ∀ l : List Row,
    l.Pairwise (fun a b => a.timestamp < b.timestamp) → dedupByTs l = l
  | [] => fun _ => by rw [dedupByTs]
  | r :: rs => by
    intro h
    rw [List.pairwise_cons] at h
    rw [dedupByTs]
    have hf : rs.filter (fun s => s.timestamp ≠ r.timestamp) = rs := by
      rw [List.filter_eq_self]
      intro a ha
      have := h.1 a ha
      simp only [decide_eq_true_eq]
      omega
    rw [hf, dedupByTs_of_pairwise rs h.2]

theorem dupTs_iff (df : List Row) :
    check_duplicate_timestamps df = true ↔
      ∀ t : Int, df.countP (fun r => r.timestamp = t) ≤ 1 :=
  dup_check_iff df (fun r => r.timestamp)

theorem dupDt_iff (df : List Row) :
    check_duplicate_datetime df = true ↔
      ∀ dv : LocalDT, df.countP (fun r => r.datetime = dv) ≤ 1 :=
  dup_check_iff df (fun r => r.datetime)

theorem validate_bool_eq (df : List Row) :
    validate_dataframe df =
      (!df.isEmpty && (check_duplicate_timestamps df && (check_duplicate_datetime df &&
        (check_negative_prices df && check_timestamp_ordering df)))) := by
  simp only [validate_dataframe, validations, runValidations, check_null_values,
    check_volume_values, if_true]
  cases df.isEmpty <;> cases check_duplicate_timestamps df <;>
    cases check_duplicate_datetime df <;> cases check_negative_prices df <;>
    cases check_timestamp_ordering df <;> simp

/-- C1, counterexample: the claim requires every accepted instant to have
time-of-day strictly before 16:00:00 (57600 s), but on an ordinary day
(2025-01-02) the session filter accepts exactly 16:00:00 — the source
rejects only `candle_time > market_close`, so the close bound is
inclusive, not exclusive. -/
theorem C1_counterexample :
    sessionAccept ⟨2025, 1, 2, 57600⟩ = true ∧
      ¬((⟨2025, 1, 2, 57600⟩ : LocalDT).tod < market_close) := by
  constructor
  · decide
  · decide

/-- C1, amended: the regular-session predicate accepts an instant iff its
exchange-local time-of-day t satisfies 09:30:00 ≤ t and t ≤ 16:00:00
(the close bound is inclusive: exactly 16:00:00 is accepted), and
additionally, when the local date is July 3rd of any year, or the fourth
Friday of November (the 4th element of the month's Fridays enumerated
chronologically; inapplicable if fewer than four exist), or December
24th regardless of its weekday, only if t ≤ 13:00:00. -/
theorem C1_amended (dt : LocalDT) :
    sessionAccept dt = true ↔
      (market_open ≤ dt.tod ∧ dt.tod ≤ market_close ∧
        (((dt.month = 7 ∧ dt.day = 3) ∨ (dt.month = 11 ∧ is_fourth_friday dt = true) ∨
            (dt.month = 12 ∧ dt.day = 24)) → dt.tod ≤ early_close)) := by
  unfold sessionAccept
  split_ifs with h1 h2 h3 h4
  · simp only [Bool.false_eq_true, false_iff]
    rintro ⟨ho, hc, -⟩
    omega
  · simp only [Bool.false_eq_true, false_iff]
    rintro ⟨-, -, he⟩
    have := he (Or.inl ⟨h2.1, h2.2.1⟩)
    omega
  · simp only [Bool.false_eq_true, false_iff]
    rintro ⟨-, -, he⟩
    have := he (Or.inr (Or.inl ⟨h3.1, h3.2.1⟩))
    omega
  · simp only [Bool.false_eq_true, false_iff]
    rintro ⟨-, -, he⟩
    have := he (Or.inr (Or.inr ⟨h4.1, h4.2.1⟩))
    omega
  · simp only [true_iff]
    refine ⟨by omega, by omega, ?_⟩
    rintro (⟨hm, hd⟩ | ⟨hm, hf⟩ | ⟨hm, hd⟩)
    · by_contra hlt
      exact h2 ⟨hm, hd, by omega⟩
    · by_contra hlt
      exact h3 ⟨hm, hf, by omega⟩
    · by_contra hlt
      exact h4 ⟨hm, hd, by omega⟩

/-- C7: for every `days_remaining ≥ 1` the period optimizer returns the
largest element of `[10, 5, 4, 3, 2, 1]` not exceeding it, and for every
`days_remaining ≤ 0` it returns 0. -/
theorem C7_optimal_period (d : Int) :
    (1 ≤ d →
      get_optimal_period d ∈ VALID_PERIODS ∧ get_optimal_period d ≤ d ∧
        ∀ p ∈ VALID_PERIODS, p ≤ d → p ≤ get_optimal_period d) ∧
    (d ≤ 0 → get_optimal_period d = 0) := by
  simp only [get_optimal_period, VALID_PERIODS, periodLoop]
  constructor
  · intro hd
    split_ifs with g10 g5 g4 g3 g2 g1
    all_goals refine ⟨by simp, by omega, ?_⟩
    all_goals intro p hp hpd
    all_goals simp only [List.mem_cons, List.not_mem_nil, or_false] at hp
    all_goals rcases hp with rfl | rfl | rfl | rfl | rfl | rfl <;> omega
  · intro hd
    split_ifs <;> omega

/-- C7, witness at `days_remaining = 7` (returns 5) and `-3` (returns 0). -/
theorem C7_optimal_period_witness :
    ((1 ≤ (7 : Int)) ∧
      (get_optimal_period 7 ∈ VALID_PERIODS ∧ get_optimal_period 7 ≤ 7 ∧
        ∀ p ∈ VALID_PERIODS, p ≤ 7 → p ≤ get_optimal_period 7)) ∧
    (((-3 : Int) ≤ 0) ∧ get_optimal_period (-3) = 0) :=
  ⟨⟨by norm_num, (C7_optimal_period 7).1 (by norm_num)⟩,
   ⟨by norm_num, (C7_optimal_period (-3)).2 (by norm_num)⟩⟩

/-- C5: validation passes iff the input is non-empty and none of the four
hard-failure checks fires — no duplicate epoch timestamp, no duplicate
formatted datetime value, no negative open/high/low/close, and
non-decreasing timestamps as given.  Null/missing-field and volume
checks do not appear in the characterization because they can never flip
the result (they unconditionally return `True`).  An empty (or `None`)
input yields `false` with no per-row check evaluated. -/
theorem C5_validator (df : List Row) :
    (validate_dataframe df = true ↔
      (df ≠ [] ∧ (∀ t : Int, df.countP (fun r => r.timestamp = t) ≤ 1) ∧
        (∀ dv : LocalDT, df.countP (fun r => r.datetime = dv) ≤ 1) ∧
        (∀ r ∈ df, 0 ≤ r.open_ ∧ 0 ≤ r.high ∧ 0 ≤ r.low ∧ 0 ≤ r.close) ∧
        List.Chain' (· ≤ ·) (df.map (·.timestamp)))) ∧
    (validate_dataframe [] = false ∧ validationTrace [] = []) := by
  refine ⟨?_, rfl, rfl⟩
  constructor
  · intro hv
    rw [validate_bool_eq] at hv
    simp only [Bool.and_eq_true] at hv
    obtain ⟨hne, h1, h2, h4, h6⟩ := hv
    refine ⟨?_, (dupTs_iff df).mp h1, (dupDt_iff df).mp h2, (neg_check_iff df).mp h4,
      (monotonicInc_iff _).mp h6⟩
    intro h
    subst h
    simp at hne
  · rintro ⟨hne, h1, h2, h4, h6⟩
    rw [validate_bool_eq]
    simp only [Bool.and_eq_true]
    exact ⟨by simp [hne], (dupTs_iff df).mpr h1, (dupDt_iff df).mpr h2,
      (neg_check_iff df).mpr h4, (monotonicInc_iff _).mpr h6⟩

theorem process_single_roundtrip (localize : Int → LocalDT) (c : RawCandle) (r : Row)
    (h : process_single_candle localize c = some r) :
    rowToCandle r = c ∧ process_single_candle localize (rowToCandle r) = some r := by
  unfold process_single_candle at h
  split_ifs at h with hs
  obtain rfl := Option.some_injective _ h
  exact ⟨rfl, by unfold process_single_candle rowToCandle; simp [hs]⟩

theorem filterMap_map_rowToCandle (P : RawCandle → Option Row) :
    ∀ l : List Row, (∀ x ∈ l, P (rowToCandle x) = some x) →
      (l.map rowToCandle).filterMap P = l
  | [], _ => rfl
  | x :: t, h => by
    rw [List.map_cons, List.filterMap_cons, h x (List.mem_cons_self _ _),
      filterMap_map_rowToCandle P t (fun y hy => h y (List.mem_cons_of_mem _ hy))]

theorem pairwise_process_candles (localize : Int → LocalDT) (candles : List RawCandle) :
    (process_candles localize candles).Pairwise
      (fun a b => a.timestamp < b.timestamp) :=
  pairwise_dedupByTs _ (pairwise_sortByTs _)

theorem mem_process_candles (localize : Int → LocalDT) (candles : List RawCandle)
    (r : Row) (hr : r ∈ process_candles localize candles) :
    ∃ c ∈ candles, process_single_candle localize c = some r := by
  have h1 : r ∈ candles.filterMap (process_single_candle localize) :=
    (mem_sortByTs r _).mp (mem_dedupByTs r _ hr)
  exact List.mem_filterMap.mp h1

/-- C6: the cleaning pipeline returns session-surviving candles with
strictly increasing (hence unique) epoch timestamps; an empty input, or
one whose candles are all filtered out, yields the empty sequence; every
output row comes from a surviving input candle, and every surviving
candle's timestamp is represented in the output. -/
theorem C6_process_candles (localize : Int → LocalDT) (candles : List RawCandle) :
    (process_candles localize candles).Pairwise
        (fun a b => a.timestamp < b.timestamp) ∧
      (process_candles localize candles = [] ↔
        candles.filterMap (process_single_candle localize) = []) ∧
      (∀ r ∈ process_candles localize candles,
        ∃ c ∈ candles, process_single_candle localize c = some r) ∧
      (∀ c ∈ candles, ∀ r : Row, process_single_candle localize c = some r →
        ∃ u ∈ process_candles localize candles, u.timestamp = r.timestamp) := by
  refine ⟨pairwise_process_candles localize candles, ?_, mem_process_candles localize candles, ?_⟩
  · unfold process_candles
    rw [dedupByTs_eq_nil_iff, sortByTs_eq_nil_iff]
  · intro c hc r hr
    have h1 : r ∈ candles.filterMap (process_single_candle localize) :=
      List.mem_filterMap.mpr ⟨c, hc, hr⟩
    exact dedupByTs_cover r _ ((mem_sortByTs r _).mpr h1)

/-- C9: cleaning is idempotent — re-running the pipeline on its own
output (whose epoch-millis `timestamp` column feeds back as the
provider's `datetime` key) reproduces that output unchanged: the output
is already session-filtered, sorted and deduplicated. -/
theorem C9_idempotent (localize : Int → LocalDT) (candles : List RawCandle) :
    process_candles localize
        ((process_candles localize candles).map rowToCandle) =
      process_candles localize candles := by
  have hshape : ∀ r ∈ process_candles localize candles,
      process_single_candle localize (rowToCandle r) = some r := by
    intro r hr
    obtain ⟨c, _, hc⟩ := mem_process_candles localize candles r hr
    exact (process_single_roundtrip localize c r hc).2
  have hlt := pairwise_process_candles localize candles
  conv_lhs => rw [process_candles]
  rw [filterMap_map_rowToCandle _ _ hshape,
    sortByTs_of_pairwise _ (hlt.imp (fun h => le_of_lt h)),
    dedupByTs_of_pairwise _ hlt]

theorem foldl_max_mem (a : Int) : ∀ l : List Int, l.foldl max a ∈ a :: l
  | [] => List.mem_singleton.mpr rfl
  | b :: t => by
    rw [List.foldl_cons]
    have h := foldl_max_mem (max a b) t
    rcases List.mem_cons.mp h with heq | ht
    · rcases max_choice a b with hab | hab <;> rw [heq, hab] <;> simp
    · simp [List.mem_cons.mpr (Or.inr (List.mem_cons.mpr (Or.inr ht)))]

theorem le_foldl_max (a : Int) : ∀ l : List Int, ∀ x ∈ a :: l, x ≤ l.foldl max a
  | [] => by
    intro x hx
    rw [List.mem_singleton] at hx
    simp [hx, List.foldl_nil]
  | b :: t => by
    intro x hx
    rw [List.foldl_cons]
    rcases List.mem_cons.mp hx with rfl | hx
    · exact le_trans (le_max_left x b) (le_foldl_max (max x b) t _ (List.mem_cons_self _ _))
    · rcases List.mem_cons.mp hx with rfl | hx
      · exact le_trans (le_max_right a x) (le_foldl_max (max a x) t _ (List.mem_cons_self _ _))
      · exact le_foldl_max (max a b) t x (List.mem_cons_of_mem _ hx)

theorem foldl_min_mem (a : Int) : ∀ l : List Int, l.foldl min a ∈ a :: l
  | [] => List.mem_singleton.mpr rfl
  | b :: t => by
    rw [List.foldl_cons]
    have h := foldl_min_mem (min a b) t
    rcases List.mem_cons.mp h with heq | ht
    · rcases min_choice a b with hab | hab <;> rw [heq, hab] <;> simp
    · simp [List.mem_cons.mpr (Or.inr (List.mem_cons.mpr (Or.inr ht)))]

theorem foldl_min_le (a : Int) : ∀ l : List Int, ∀ x ∈ a :: l, l.foldl min a ≤ x
  | [] => by
    intro x hx
    rw [List.mem_singleton] at hx
    simp [hx, List.foldl_nil]
  | b :: t => by
    intro x hx
    rw [List.foldl_cons]
    rcases List.mem_cons.mp hx with rfl | hx
    · exact le_trans (foldl_min_le (min x b) t _ (List.mem_cons_self _ _)) (min_le_left x b)
    · rcases List.mem_cons.mp hx with rfl | hx
      · exact le_trans (foldl_min_le (min a x) t _ (List.mem_cons_self _ _)) (min_le_right a x)
      · exact foldl_min_le (min a b) t x (List.mem_cons_of_mem _ hx)

theorem foldl_add_eq (a : Int) : ∀ l : List Int, l.foldl (· + ·) a = a + l.sum
  | [] => by simp
  | b :: t => by
    rw [List.foldl_cons, foldl_add_eq (a + b) t, List.sum_cons]
    ring

theorem getLast?_cons_getLastD (r : ARow) : ∀ rs : List ARow,
    (r :: rs).getLast? = some (rs.getLastD r)
  | [] => rfl
  | s :: t => by
    rw [List.getLast?_cons_cons, getLast?_cons_getLastD s t, List.getLastD_cons]

theorem mem_dedupFirst (x : Nat) : ∀ l : List Nat, (x ∈ dedupFirst l ↔ x ∈ l)
  | [] => by simp [dedupFirst]
  | k :: ks => by
    rw [dedupFirst]
    by_cases hx : x = k
    · subst hx
      simp
    · simp only [List.mem_cons, List.mem_filter, mem_dedupFirst x ks, decide_eq_true_eq]
      constructor
      · rintro (rfl | ⟨hm, -⟩)
        · exact Or.inl rfl
        · exact Or.inr hm
      · rintro (rfl | hm)
        · exact Or.inl rfl
        · exact Or.inr ⟨hm, hx⟩

theorem pairwise_bucketKey (g : Nat) (rows : List ARow)
    (h : (rows.map (·.lt)).Pairwise (· ≤ ·)) :
    (rows.map (bucketKey g)).Pairwise (· ≤ ·) := by
  rw [List.pairwise_map] at h ⊢
  exact h.imp (fun hab => Nat.div_le_div_right hab)

theorem chunkRuns_ne_nil (g : Nat) : ∀ rows : List ARow, ∀ run ∈ chunkRuns g rows, run ≠ []
  | [] => by simp [chunkRuns]
  | [r] => by simp [chunkRuns]
  | r :: s :: t => by
    intro run hrun
    rw [chunkRuns] at hrun
    cases hc : chunkRuns g (s :: t) with
    | nil =>
      rw [hc] at hrun
      simp only [List.mem_singleton] at hrun
      simp [hrun]
    | cons run0 runs0 =>
      rw [hc] at hrun
      simp only at hrun
      split_ifs at hrun
      · rcases List.mem_cons.mp hrun with rfl | hrun
        · simp
        · exact chunkRuns_ne_nil g (s :: t) run (hc ▸ List.mem_cons_of_mem _ hrun)
      · rcases List.mem_cons.mp hrun with rfl | hrun
        · simp
        · exact chunkRuns_ne_nil g (s :: t) run (hc ▸ hrun)

theorem chunkRuns_flatten (g : Nat) : ∀ rows : List ARow, (chunkRuns g rows).flatten = rows
  | [] => rfl
  | [r] => rfl
  | r :: s :: t => by
    have IH := chunkRuns_flatten g (s :: t)
    rw [chunkRuns]
    cases hc : chunkRuns g (s :: t) with
    | nil =>
      rw [hc] at IH
      simp at IH
    | cons run0 runs0 =>
      rw [hc] at IH
      simp only
      split_ifs
      · simp only [List.flatten_cons] at IH ⊢
        rw [List.cons_append, IH]
      · simp only [List.flatten_cons] at IH ⊢
        rw [List.singleton_append, IH]

theorem chunkRuns_eq (g : Nat) : ∀ rows : List ARow,
    (rows.map (bucketKey g)).Pairwise (· ≤ ·) →
    chunkRuns g rows = (dedupFirst (rows.map (bucketKey g))).map
      (fun k => rows.filter (fun r => bucketKey g r = k))
  | [] => fun _ => rfl
  | [r] => fun _ => by
    simp [chunkRuns, dedupFirst, List.filter]
  | r :: s :: t => fun h => by
    simp only [List.map_cons, List.pairwise_cons] at h
    obtain ⟨h1, h2, h3⟩ := h
    have IH := chunkRuns_eq g (s :: t)
      (by simp only [List.map_cons, List.pairwise_cons]; exact ⟨h2, h3⟩)
    have hIH : chunkRuns g (s :: t) =
        ((s :: t).filter (fun x => bucketKey g x = bucketKey g s)) ::
          ((dedupFirst (t.map (bucketKey g))).filter
              (fun x => x ≠ bucketKey g s)).map
            (fun k => (s :: t).filter (fun x => bucketKey g x = k)) := by
      rw [IH]
      simp only [List.map_cons]
      rw [dedupFirst]
      rw [List.map_cons]
    rw [chunkRuns, hIH]
    simp only
    by_cases hks : bucketKey g r = bucketKey g s
    · rw [if_pos hks]
      simp only [List.map_cons]
      rw [dedupFirst]
      rw [dedupFirst]
      rw [hks]
      have hkeys : List.filter (fun x => decide (x ≠ bucketKey g s))
          (bucketKey g s :: List.filter (fun x => decide (x ≠ bucketKey g s))
            (dedupFirst (List.map (bucketKey g) t))) =
          List.filter (fun x => decide (x ≠ bucketKey g s))
            (dedupFirst (List.map (bucketKey g) t)) := by
        rw [List.filter_cons_of_neg (by simp), List.filter_eq_self]
        intro a ha
        exact (List.mem_filter.mp ha).2
      rw [hkeys, List.map_cons]
      conv_rhs =>
        rw [List.filter_cons_of_pos (by simp [hks])]
      congr 1
      refine (List.map_congr_left ?_).symm
      intro k hk
      have hkne : k ≠ bucketKey g s := by
        have := (List.mem_filter.mp hk).2
        simpa using this
      rw [List.filter_cons_of_neg (by simp [hks]; exact fun hh => hkne hh.symm)]
    · rw [if_neg hks]
      simp only [List.map_cons]
      rw [dedupFirst, dedupFirst]
      have hkrlt : ∀ x ∈ List.map (bucketKey g) t, bucketKey g r < x := by
        intro x hx
        have ha := h1 (bucketKey g s) (List.mem_cons_self _ _)
        have hb := h2 x hx
        omega
      have hfilters : List.filter (fun x => decide (x ≠ bucketKey g r))
          (bucketKey g s :: List.filter (fun x => decide (x ≠ bucketKey g s))
            (dedupFirst (List.map (bucketKey g) t))) =
          bucketKey g s :: List.filter (fun x => decide (x ≠ bucketKey g s))
            (dedupFirst (List.map (bucketKey g) t)) := by
        rw [List.filter_eq_self]
        intro a ha
        rcases List.mem_cons.mp ha with rfl | ha
        · simp
          exact fun hh => hks hh.symm
        · have hmem : a ∈ List.map (bucketKey g) t :=
            (mem_dedupFirst a _).mp (List.mem_of_mem_filter ha)
          have := hkrlt a hmem
          simp
          omega
      rw [hfilters, List.map_cons, List.map_cons]
      have htail0 : List.filter
          (fun x => decide (bucketKey g x = bucketKey g r)) (s :: t) = [] := by
        rw [List.filter_eq_nil_iff]
        intro x hx
        rcases List.mem_cons.mp hx with rfl | hx
        · simp
          exact fun hh => hks hh.symm
        · have := hkrlt (bucketKey g x) (List.mem_map_of_mem _ hx)
          simp
          omega
      have hhead : List.filter
          (fun x => decide (bucketKey g x = bucketKey g r)) (r :: s :: t) = [r] := by
        rw [List.filter_cons_of_pos (by simp), htail0]
      rw [hhead]
      conv_rhs => rw [List.filter_cons_of_neg (by simp; exact fun hh => hks hh)]
      congr 2
      refine (List.map_congr_left fun k hk => ?_).symm
      have hkmem : k ∈ List.map (bucketKey g) t :=
        (mem_dedupFirst k _).mp (List.mem_of_mem_filter hk)
      have := hkrlt k hkmem
      rw [List.filter_cons_of_neg (by simp; omega)]

theorem aggRun_fields (g : Nat) (r : ARow) (rs : List ARow) :
    (aggRun g (r :: rs)).timestamp = r.timestamp ∧
      (aggRun g (r :: rs)).open_ = r.open_ ∧
      (aggRun g (r :: rs)).high ∈ (r :: rs).map (·.high) ∧
      (∀ v ∈ (r :: rs).map (·.high), v ≤ (aggRun g (r :: rs)).high) ∧
      (aggRun g (r :: rs)).low ∈ (r :: rs).map (·.low) ∧
      (∀ v ∈ (r :: rs).map (·.low), (aggRun g (r :: rs)).low ≤ v) ∧
      (∃ rl, (r :: rs).getLast? = some rl ∧ (aggRun g (r :: rs)).close = rl.close) ∧
      (aggRun g (r :: rs)).volume = ((r :: rs).map (·.volume)).sum := by
  have hmax : (rs.map (·.high)).foldl max r.high =
      rs.foldl (fun a x => max a x.high) r.high :=
    List.foldl_map (·.high) max rs r.high
  have hmin : (rs.map (·.low)).foldl min r.low =
      rs.foldl (fun a x => min a x.low) r.low :=
    List.foldl_map (·.low) min rs r.low
  have hvol : (rs.map (·.volume)).foldl (· + ·) r.volume =
      rs.foldl (fun a x => a + x.volume) r.volume :=
    List.foldl_map (·.volume) (· + ·) rs r.volume
  refine ⟨rfl, rfl, ?_, ?_, ?_, ?_,
    ⟨rs.getLastD r, getLast?_cons_getLastD r rs, rfl⟩, ?_⟩
  · show rs.foldl (fun a x => max a x.high) r.high ∈ (r :: rs).map (·.high)
    rw [← hmax, List.map_cons]
    exact foldl_max_mem r.high (rs.map (·.high))
  · intro v hv
    rw [List.map_cons] at hv
    show v ≤ rs.foldl (fun a x => max a x.high) r.high
    rw [← hmax]
    exact le_foldl_max r.high (rs.map (·.high)) v hv
  · show rs.foldl (fun a x => min a x.low) r.low ∈ (r :: rs).map (·.low)
    rw [← hmin, List.map_cons]
    exact foldl_min_mem r.low (rs.map (·.low))
  · intro v hv
    rw [List.map_cons] at hv
    show rs.foldl (fun a x => min a x.low) r.low ≤ v
    rw [← hmin]
    exact foldl_min_le r.low (rs.map (·.low)) v hv
  · show rs.foldl (fun a x => a + x.volume) r.volume = ((r :: rs).map (·.volume)).sum
    rw [← hvol, foldl_add_eq, List.map_cons, List.sum_cons]

theorem get_optimal_period_pos (d : Int) (hd : 1 ≤ d) : 1 ≤ get_optimal_period d := by
  simp only [get_optimal_period, VALID_PERIODS, periodLoop]
  split_ifs <;> omega

theorem chunkEnd_bounds (cur e : Int) (h : cur ≤ e) :
    cur ≤ chunkEnd cur e ∧ chunkEnd cur e ≤ e := by
  have := get_optimal_period_pos (e - cur + 1) (by omega)
  simp only [chunkEnd]
  omega

theorem fetchAllAux_fail (oracle : Int → Int → Option (List RawCandle)) (e : Int) :
    ∀ (n : Nat) (cur : Int), (e + 1 - cur).toNat ≤ n →
      (∃ w ∈ chunks cur e, oracle w.1 w.2 = none) →
      fetchAllAux oracle cur e = none := by
  intro n
  induction n with
  | zero =>
    rintro cur hm ⟨w, hw, -⟩
    have hgt : ¬(cur ≤ e) := by omega
    rw [chunks, dif_neg hgt] at hw
    cases hw
  | succ n ih =>
    rintro cur hm ⟨w, hw, hfail⟩
    by_cases hle : cur ≤ e
    · have hp : ¬(get_optimal_period (e - cur + 1) = 0) := by
        have := get_optimal_period_pos (e - cur + 1) (by omega)
        omega
      have hce := chunkEnd_bounds cur e hle
      rw [chunks, dif_pos hle, dif_neg hp] at hw
      rw [fetchAllAux, dif_pos hle, dif_neg hp]
      rcases List.mem_cons.mp hw with rfl | hw
      · rw [hfail]
      · cases ho : oracle cur (chunkEnd cur e) with
        | none => rfl
        | some cs =>
          have : fetchAllAux oracle (chunkEnd cur e + 1) e = none :=
            ih (chunkEnd cur e + 1) (by omega) ⟨w, hw, hfail⟩
          rw [this]
          rfl
    · rw [chunks, dif_neg hle] at hw
      cases hw

/-- C8: if any single chunk of the ladder fails (transport error or
non-2xx response, both modelled by the HTTP oracle returning `none`),
the whole fetch fails: `_fetch_all_periods` returns the empty list —
discarding the candles of every chunk that had already succeeded — and
`get_price_history` signals failure with `None`. -/
theorem C8_fail_fast (localize : Int → LocalDT)
    (oracle : Int → Int → Option (List RawCandle)) (cur e : Int)
    (h : ∃ w ∈ chunks cur e, oracle w.1 w.2 = none) :
    fetch_all_periods oracle cur e = [] ∧
      get_price_history localize oracle cur e = none := by
  have hfa : fetchAllAux oracle cur e = none :=
    fetchAllAux_fail oracle e _ cur le_rfl h
  refine ⟨by simp [fetch_all_periods, hfa], ?_⟩
  simp [get_price_history, fetch_all_periods, hfa]

/-- C8, witness: a one-chunk range whose single request fails. -/
theorem C8_witness :
    (∃ w ∈ chunks 0 0, (fun _ _ => (none : Option (List RawCandle))) w.1 w.2 = none) ∧
      (fetch_all_periods (fun _ _ => none) 0 0 = [] ∧
        get_price_history (fun _ => ⟨2025, 1, 2, 34200⟩) (fun _ _ => none) 0 0 = none) := by
  have hch : chunks 0 0 = [(0, 0)] := by
    rw [chunks]
    norm_num [chunkEnd, get_optimal_period, VALID_PERIODS, periodLoop]
    rw [chunks]
    norm_num
  exact ⟨⟨(0, 0), by rw [hch]; simp, rfl⟩,
    C8_fail_fast (fun _ => ⟨2025, 1, 2, 34200⟩) (fun _ _ => none) 0 0
      ⟨(0, 0), by rw [hch]; simp, rfl⟩⟩

theorem chunks_length_le (e : Int) : ∀ (n : Nat) (cur : Int), (e + 1 - cur).toNat ≤ n →
    (chunks cur e).length ≤ (e + 1 - cur).toNat := by
  intro n
  induction n with
  | zero =>
    intro cur hm
    have hgt : ¬(cur ≤ e) := by omega
    rw [chunks, dif_neg hgt]
    simp
  | succ n ih =>
    intro cur hm
    by_cases hle : cur ≤ e
    · have hp : ¬(get_optimal_period (e - cur + 1) = 0) := by
        have := get_optimal_period_pos (e - cur + 1) (by omega)
        omega
      have hce := chunkEnd_bounds cur e hle
      rw [chunks, dif_pos hle, dif_neg hp]
      rw [List.length_cons]
      have htail := ih (chunkEnd cur e + 1) (by omega)
      omega
    · rw [chunks, dif_neg hle]
      simp

/-- C10: whenever the chunking loop body runs (`start ≤ end`),
`days_remaining = end − start + 1` is at least 1, the selected period is
at least 1, the loop's start pointer strictly advances (to
`period_end + 1`), and consequently the loop terminates after at most
`days_remaining` iterations. -/
theorem C10_termination (cur e : Int) (h : cur ≤ e) :
    1 ≤ e - cur + 1 ∧
      1 ≤ get_optimal_period (e - cur + 1) ∧
      cur < chunkEnd cur e + 1 ∧
      (chunks cur e).length ≤ (e + 1 - cur).toNat := by
  have hp := get_optimal_period_pos (e - cur + 1) (by omega)
  have hce := chunkEnd_bounds cur e h
  exact ⟨by omega, hp, by omega, chunks_length_le e _ cur le_rfl⟩

/-- C10, witness at the one-day range `[0, 0]`. -/
theorem C10_witness :
    ((0 : Int) ≤ 0) ∧
      (1 ≤ (0 : Int) - 0 + 1 ∧
        1 ≤ get_optimal_period (0 - 0 + 1) ∧
        (0 : Int) < chunkEnd 0 0 + 1 ∧
        (chunks 0 0).length ≤ ((0 : Int) + 1 - 0).toNat) :=
  ⟨le_refl 0, C10_termination 0 0 (le_refl 0)⟩

/-- C4: on a time-sorted frame, the resample-and-aggregate step
partitions the rows into contiguous non-overlapping buckets (maximal
runs of equal `g`-second wall-clock bin, whose concatenation restores
the input), and emits exactly one output bar per non-empty bucket, with
timestamp and open from the bucket's first row, high/low the
maximum/minimum over the bucket, close from its last row, and volume the
bucket sum; empty buckets yield no bar, and a partially filled bucket
still yields a bar from its rows. -/
theorem C4_aggregation (g : Nat) (rows : List ARow)
    (hs : (rows.map (·.lt)).Pairwise (· ≤ ·)) :
    resampleAgg g rows = (chunkRuns g rows).map (aggRun g) ∧
      (chunkRuns g rows).flatten = rows ∧
      ∀ run ∈ chunkRuns g rows, ∃ r0 rs0, run = r0 :: rs0 ∧
        (∀ x ∈ run, bucketKey g x = bucketKey g r0) ∧
        (aggRun g run).timestamp = r0.timestamp ∧
        (aggRun g run).open_ = r0.open_ ∧
        (aggRun g run).high ∈ run.map (·.high) ∧
        (∀ v ∈ run.map (·.high), v ≤ (aggRun g run).high) ∧
        (aggRun g run).low ∈ run.map (·.low) ∧
        (∀ v ∈ run.map (·.low), (aggRun g run).low ≤ v) ∧
        (∃ rl, run.getLast? = some rl ∧ (aggRun g run).close = rl.close) ∧
        (aggRun g run).volume = (run.map (·.volume)).sum := by
  have hkeys := pairwise_bucketKey g rows hs
  have heq := chunkRuns_eq g rows hkeys
  refine ⟨?_, chunkRuns_flatten g rows, ?_⟩
  · rw [heq, List.map_map]
    rfl
  · intro run hrun
    have hne := chunkRuns_ne_nil g rows run hrun
    obtain ⟨r0, rs0, hcons⟩ : ∃ r0 rs0, run = r0 :: rs0 := by
      cases run with
      | nil => exact absurd rfl hne
      | cons a b => exact ⟨a, b, rfl⟩
    subst hcons
    have hfields := aggRun_fields g r0 rs0
    have hkconst : ∀ x ∈ r0 :: rs0, bucketKey g x = bucketKey g r0 := by
      rw [heq] at hrun
      obtain ⟨k, hk, hfk⟩ := List.mem_map.mp hrun
      intro x hx
      have hx2 : x ∈ rows.filter (fun r => bucketKey g r = k) := hfk ▸ hx
      have h02 : r0 ∈ rows.filter (fun r => bucketKey g r = k) :=
        hfk ▸ List.mem_cons_self r0 rs0
      have e1 := (List.mem_filter.mp hx2).2
      have e0 := (List.mem_filter.mp h02).2
      simp only [decide_eq_true_eq] at e1 e0
      rw [e1, e0]
    exact ⟨r0, rs0, rfl, hkconst, hfields.1, hfields.2.1, hfields.2.2.1,
      hfields.2.2.2.1, hfields.2.2.2.2.1, hfields.2.2.2.2.2.1,
      hfields.2.2.2.2.2.2.1, hfields.2.2.2.2.2.2.2⟩

/-- C4, witness: three 1-minute rows at 09:30/09:31/09:33 aggregated to
3-minute buckets (the 09:30 bucket is only partially filled). -/
theorem C4_witness :
    ((([⟨1, 34200, 10, 12, 9, 11, 100⟩, ⟨2, 34260, 11, 15, 8, 12, 50⟩,
          ⟨3, 34380, 12, 13, 10, 11, 25⟩] : List ARow).map (·.lt)).Pairwise (· ≤ ·)) ∧
      (resampleAgg 180
          [⟨1, 34200, 10, 12, 9, 11, 100⟩, ⟨2, 34260, 11, 15, 8, 12, 50⟩,
            ⟨3, 34380, 12, 13, 10, 11, 25⟩] =
        (chunkRuns 180
            [⟨1, 34200, 10, 12, 9, 11, 100⟩, ⟨2, 34260, 11, 15, 8, 12, 50⟩,
              ⟨3, 34380, 12, 13, 10, 11, 25⟩]).map (aggRun 180) ∧
      (chunkRuns 180
          [⟨1, 34200, 10, 12, 9, 11, 100⟩, ⟨2, 34260, 11, 15, 8, 12, 50⟩,
            ⟨3, 34380, 12, 13, 10, 11, 25⟩]).flatten =
        [⟨1, 34200, 10, 12, 9, 11, 100⟩, ⟨2, 34260, 11, 15, 8, 12, 50⟩,
          ⟨3, 34380, 12, 13, 10, 11, 25⟩] ∧
      ∀ run ∈ chunkRuns 180
          [⟨1, 34200, 10, 12, 9, 11, 100⟩, ⟨2, 34260, 11, 15, 8, 12, 50⟩,
            ⟨3, 34380, 12, 13, 10, 11, 25⟩], ∃ r0 rs0, run = r0 :: rs0 ∧
        (∀ x ∈ run, bucketKey 180 x = bucketKey 180 r0) ∧
        (aggRun 180 run).timestamp = r0.timestamp ∧
        (aggRun 180 run).open_ = r0.open_ ∧
        (aggRun 180 run).high ∈ run.map (·.high) ∧
        (∀ v ∈ run.map (·.high), v ≤ (aggRun 180 run).high) ∧
        (aggRun 180 run).low ∈ run.map (·.low) ∧
        (∀ v ∈ run.map (·.low), (aggRun 180 run).low ≤ v) ∧
        (∃ rl, run.getLast? = some rl ∧ (aggRun 180 run).close = rl.close) ∧
        (aggRun 180 run).volume = (run.map (·.volume)).sum) :=
  ⟨by decide, C4_aggregation 180 _ (by decide)⟩

/-- C3, counterexample: a bar at 02:00 local (7200 s, volume 5) is
dropped by the aggregator's own market-hours mask and contributes to no
bucket — the aggregated output is empty — refuting the claim that every
input bar is bucketed regardless of its time of day. -/
theorem C3_counterexample :
    inMarketHours ⟨1000, 7200, 1, 2, 1, 2, 5⟩ = false ∧
      aggregate_market_data 180 [⟨1000, 7200, 1, 2, 1, 2, 5⟩] = [] := by
  decide

/-- C3, amended: the aggregator re-applies a session-time mask to its
input (09:30:00 ≤ local time < 16:00:00, close exclusive, without
early-close rules): on a time-sorted frame every bar inside that window
is assigned to a bucket (it lies in one of the contiguous runs being
aggregated) and its volume is counted exactly once in the output, while
bars outside the window are dropped and contribute nothing. -/
theorem C3_amended (g : Nat) (rows : List ARow)
    (hs : (rows.map (·.lt)).Pairwise (· ≤ ·)) :
    ((aggregate_market_data g rows).map (·.volume)).sum =
        ((rows.filter inMarketHours).map (·.volume)).sum ∧
      ∀ r ∈ rows, inMarketHours r = true →
        ∃ run ∈ chunkRuns g (rows.filter inMarketHours), r ∈ run := by
  have hsf : ((rows.filter inMarketHours).map (·.lt)).Pairwise (· ≤ ·) := by
    rw [List.pairwise_map] at hs ⊢
    exact hs.sublist (List.filter_sublist rows)
  have hkeys := pairwise_bucketKey g _ hsf
  have heq := chunkRuns_eq g _ hkeys
  constructor
  · have h1 : aggregate_market_data g rows =
        (chunkRuns g (rows.filter inMarketHours)).map (aggRun g) := by
      unfold aggregate_market_data
      rw [heq, List.map_map]
      rfl
    rw [h1]
    have h2 : ∀ L : List (List ARow), (∀ run ∈ L, run ≠ []) →
        ((L.map (aggRun g)).map (·.volume)).sum = (L.flatten.map (·.volume)).sum := by
      intro L
      induction L with
      | nil => simp
      | cons run L ih =>
        intro hL
        have hne := hL run (List.mem_cons_self _ _)
        obtain ⟨r0, rs0, rfl⟩ : ∃ r0 rs0, run = r0 :: rs0 := by
          cases run with
          | nil => exact absurd rfl hne
          | cons a b => exact ⟨a, b, rfl⟩
        simp only [List.map_cons, List.sum_cons, List.flatten_cons, List.map_append,
          List.sum_append]
        rw [ih (fun x hx => hL x (List.mem_cons_of_mem _ hx))]
        rw [(aggRun_fields g r0 rs0).2.2.2.2.2.2.2]
        simp only [List.map_cons, List.sum_cons]
    rw [h2 _ (chunkRuns_ne_nil g _), chunkRuns_flatten]
  · intro r hr hmkt
    have hrf : r ∈ rows.filter inMarketHours := List.mem_filter.mpr ⟨hr, hmkt⟩
    rw [← chunkRuns_flatten g (rows.filter inMarketHours)] at hrf
    exact List.mem_flatten.mp hrf

/-- C3, witness: the amended statement on a frame with one in-hours and
one out-of-hours bar. -/
theorem C3_witness :
    ((([⟨1, 34200, 10, 12, 9, 11, 100⟩, ⟨2, 60000, 1, 1, 1, 1, 7⟩] : List ARow).map
        (·.lt)).Pairwise (· ≤ ·)) ∧
      (((aggregate_market_data 180
            [⟨1, 34200, 10, 12, 9, 11, 100⟩, ⟨2, 60000, 1, 1, 1, 1, 7⟩]).map
          (·.volume)).sum =
        ((([⟨1, 34200, 10, 12, 9, 11, 100⟩, ⟨2, 60000, 1, 1, 1, 1, 7⟩] : List ARow).filter
            inMarketHours).map (·.volume)).sum ∧
      ∀ r ∈ ([⟨1, 34200, 10, 12, 9, 11, 100⟩, ⟨2, 60000, 1, 1, 1, 1, 7⟩] : List ARow),
        inMarketHours r = true →
        ∃ run ∈ chunkRuns 180
            (([⟨1, 34200, 10, 12, 9, 11, 100⟩, ⟨2, 60000, 1, 1, 1, 1, 7⟩] : List ARow).filter
              inMarketHours), r ∈ run) :=
  ⟨by decide, C3_amended 180 _ (by decide)⟩

/-- C2, counterexample: on the two-row frame below both the
duplicate-timestamp and the negative-price hard checks fire, yet the
validator's loop evaluates only the first check before returning — the
outcome reflects only the first firing check, refuting the claim that
all six checks are evaluated and failures accumulate. -/
theorem C2_counterexample :
    check_duplicate_timestamps
        [⟨1000, ⟨2025, 1, 2, 34200⟩, -1, 5, 1, 3, 10⟩,
         ⟨1000, ⟨2025, 1, 2, 34200⟩, 2, 5, 1, 3, 10⟩] = false ∧
      check_negative_prices
        [⟨1000, ⟨2025, 1, 2, 34200⟩, -1, 5, 1, 3, 10⟩,
         ⟨1000, ⟨2025, 1, 2, 34200⟩, 2, 5, 1, 3, 10⟩] = false ∧
      validationTrace
        [⟨1000, ⟨2025, 1, 2, 34200⟩, -1, 5, 1, 3, 10⟩,
         ⟨1000, ⟨2025, 1, 2, 34200⟩, 2, 5, 1, 3, 10⟩] = ["check_duplicate_timestamps"] := by
  decide

/-- C2, amended: the validator evaluates its checks in a fixed order and
stops at the first failure; on any non-empty frame where the
duplicate-timestamp check fails, that check is the only one evaluated
(even if other hard checks, e.g. negative price, would also fire) and
the outcome is a bare `false`. -/
theorem C2_amended (df : List Row) (h1 : df.isEmpty = false)
    (h2 : check_duplicate_timestamps df = false) :
    validate_dataframe df = false ∧
      validationTrace df = ["check_duplicate_timestamps"] := by
  unfold validate_dataframe validationTrace validations runValidations evaluatedChecks
  simp [h1, h2]

/-- C2, witness: the amended statement at the concrete two-row frame. -/
theorem C2_witness :
    (([⟨1000, ⟨2025, 1, 2, 34200⟩, -1, 5, 1, 3, 10⟩,
       ⟨1000, ⟨2025, 1, 2, 34200⟩, 2, 5, 1, 3, 10⟩] : List Row).isEmpty = false ∧
      check_duplicate_timestamps
        [⟨1000, ⟨2025, 1, 2, 34200⟩, -1, 5, 1, 3, 10⟩,
         ⟨1000, ⟨2025, 1, 2, 34200⟩, 2, 5, 1, 3, 10⟩] = false) ∧
    (validate_dataframe
        [⟨1000, ⟨2025, 1, 2, 34200⟩, -1, 5, 1, 3, 10⟩,
         ⟨1000, ⟨2025, 1, 2, 34200⟩, 2, 5, 1, 3, 10⟩] = false ∧
      validationTrace
        [⟨1000, ⟨2025, 1, 2, 34200⟩, -1, 5, 1, 3, 10⟩,
         ⟨1000, ⟨2025, 1, 2, 34200⟩, 2, 5, 1, 3, 10⟩] = ["check_duplicate_timestamps"]) :=
  ⟨⟨by decide, by decide⟩, C2_amended _ (by decide) (by decide)⟩
